import Mathlib

set_option maxRecDepth 100000

/-!
Shallow embedding of the `LayerClassifier` engine from `src/rust/src/lib.rs`.

Modelling conventions:
* a Rust `String` is modelled as its list of characters (`List Char`);
* `HashMap` is modelled as an association list with unique keys
  (`insertA` replaces in place, `lookupA` scans), `HashSet` as a
  duplicate-free list;
* wherever the Rust code iterates over a `HashSet` or `HashMap` (whose
  iteration order is unspecified), the embedded function receives that
  iteration order as an explicit list argument;
* `i32` distances are modelled as `Int`, `usize` counts as `Nat`;
* the fallible indexing `parts[0]`, `parts[1]` inside `parse_key` is
  modelled by an `Option`-returning `parseKey`.
-/

/-- Entity identifiers: a Rust `String` as its character list. -/
abbrev Ident : Type := List Char

/-- Distance-map keys are also plain strings in the Rust code. -/
abbrev Key : Type := List Char

/-- The separator character used by `make_key`. -/
def sepChar : Char := '→'

/-- `make_key(left, right)`: `format!("\x7b\x7d→\x7b\x7d", left, right)`. -/
def makeKey (l r : Ident) : Key := l ++ sepChar :: r

/-- Rust `str::split(sep)` on a single character: splits at every
occurrence of `sep`, keeping empty fragments. -/
def splitChar (sep : Char) : List Char → List (List Char)
  | [] => [[]]
  | c :: rest =>
    if c = sep then [] :: splitChar sep rest
    else
      match splitChar sep rest with
      | [] => [[c]]
      | h :: t => (c :: h) :: t

/-- `parse_key`: split on the separator and take `parts[0]`, `parts[1]`.
An out-of-bounds access (fewer than two fragments) is modelled as `none`. -/
def parseKey (k : Key) : Option (Ident × Ident) :=
  match splitChar sepChar k with
  | a :: b :: _ => some (a, b)
  | _ => none

/-- Association-list lookup, modelling `HashMap::get`. -/
def lookupA {β : Type} : List (List Char × β) → List Char → Option β
  | [], _ => none
  | p :: rest, k => if p.1 = k then some p.2 else lookupA rest k

/-- Association-list insert, modelling `HashMap::insert`: replaces the
value of an existing key in place, otherwise appends the new entry. -/
def insertA {β : Type} : List (List Char × β) → List Char → β → List (List Char × β)
  | [], k, v => [(k, v)]
  | p :: rest, k, v => if p.1 = k then (k, v) :: rest else p :: insertA rest k v

/-- The `DirectedRelation` record. -/
structure DirectedRelation where
  left : Ident
  right : Ident
deriving DecidableEq

/-- `distances: HashMap<String, i32>`. -/
abbrev DistMap : Type := List (Key × Int)

/-- The transient layer map of `compute_layers`. -/
abbrev LayerMap : Type := List (Ident × Int)

/-- The `LayerClassifier` state. -/
structure Classifier where
  relations : List DirectedRelation
  entities : List Ident
  distances : DistMap
deriving DecidableEq

/-- `LayerClassifier::new()`. -/
def newClassifier : Classifier := ⟨[], [], []⟩

/-- The ordered triples `(k, i, j)` visited by the three nested loops of
`update_distances`, for one iteration order of the entity set. -/
def triples (order : List Ident) : List (Ident × Ident × Ident) :=
  order.flatMap fun k => order.flatMap fun i => order.map fun j => (k, i, j)

/-- One body execution of the innermost loop of `update_distances`:
relax the pair `(i, j)` through the intermediate `k`.  Returns the new
map and whether a distance changed. -/
def relaxTriple (m : DistMap) (k i j : Ident) : DistMap × Bool :=
  if i ≠ j ∧ i ≠ k ∧ j ≠ k then
    match lookupA m (makeKey i k), lookupA m (makeKey k j) with
    | some dik, some dkj =>
      match lookupA m (makeKey i j) with
      | some cur =>
        if dik + dkj > cur then (insertA m (makeKey i j) (dik + dkj), true)
        else (m, false)
      | none => (insertA m (makeKey i j) (dik + dkj), true)
    | _, _ => (m, false)
  else (m, false)

/-- The fold step threading the map and the `changed_in_pass` flag
through one loop-body execution. -/
def passStep (acc : DistMap × Bool) (t : Ident × Ident × Ident) : DistMap × Bool :=
  let r := relaxTriple acc.1 t.1 t.2.1 t.2.2
  (r.1, acc.2 || r.2)

/-- One full pass of `update_distances` over all ordered triples,
accumulating the `changed_in_pass` flag. -/
def runPass (order : List Ident) (m : DistMap) : DistMap × Bool :=
  (triples order).foldl passStep (m, false)

/-- The bounded pass loop of `update_distances`: run passes until one
changes nothing or the fuel (`max_iterations`) is exhausted. -/
def updateLoop (order : List Ident) : Nat → DistMap → DistMap
  | 0, m => m
  | fuel + 1, m =>
    let r := runPass order m
    if r.2 then updateLoop order fuel r.1 else r.1

/-- `update_distances`: at most one pass per known entity
(`max_iterations = self.entities.len()`). -/
def updateDistances (order : List Ident) (m : DistMap) : DistMap :=
  updateLoop order order.length m

/-- `HashSet::insert` on the entity set. -/
def insertEntity (l : List Ident) (e : Ident) : List Ident :=
  if e ∈ l then l else l ++ [e]

/-- `add_relation(left, right)`, with the entity iteration order used by
the triggered `update_distances` passed explicitly. -/
def addRelation (c : Classifier) (l r : Ident) (order : List Ident) : Classifier :=
  { relations := c.relations ++ [⟨l, r⟩]
    entities := insertEntity (insertEntity c.entities l) r
    distances := updateDistances order (insertA c.distances (makeKey l r) 1) }

/-- `add_relation` with the canonical (insertion-order) entity
enumeration chosen as the set iteration order. -/
def addRelationSeq (c : Classifier) (l r : Ident) : Classifier :=
  addRelation c l r (insertEntity (insertEntity c.entities l) r)

/-- Run a sequence of `add_relation` calls on a fresh engine, using the
canonical entity enumeration for each closure recomputation. -/
def runRelations (ps : List (Ident × Ident)) : Classifier :=
  ps.foldl (fun c p => addRelationSeq c p.1 p.2) newClassifier

/-- Run a sequence of `add_relation` calls on a fresh engine, each call
carrying the entity iteration order its closure recomputation uses. -/
def runRelationsWith (ps : List ((Ident × Ident) × List Ident)) : Classifier :=
  ps.foldl (fun c p => addRelation c p.1.1 p.1.2 p.2) newClassifier

/-- `count_connections` for a single entity: the number of relation
records in which it appears on either side. -/
def connCount (c : Classifier) (e : Ident) : Nat :=
  c.relations.countP fun rel => decide (rel.left = e ∨ rel.right = e)

/-- The `connections` map built by `count_connections`. -/
def connectionsMap (c : Classifier) : List (Ident × Nat) :=
  c.entities.map fun e => (e, connCount c e)

/-- `connections.get(e).unwrap_or(&0)`. -/
def getConn (c : Classifier) (e : Ident) : Nat :=
  (lookupA (connectionsMap c) e).getD 0

/-- `get_reference_score`: (direct connections, neighbour connection sum). -/
def refScore (c : Classifier) (e : Ident) : Nat × Nat :=
  (getConn c e,
   c.relations.foldl
     (fun s rel =>
       if rel.left = e then s + getConn c rel.right
       else if rel.right = e then s + getConn c rel.left
       else s)
     0)

/-- The strict comparison used to update the running best score:
`score.0 > best.0 || (score.0 == best.0 && score.1 > best.1)`. -/
def Better (s b : Nat × Nat) : Prop := b.1 < s.1 ∨ (s.1 = b.1 ∧ b.2 < s.2)

instance (s b : Nat × Nat) : Decidable (Better s b) := by
  unfold Better
  exact inferInstance

/-- The reference-selection scan with an explicit starting best. -/
def pickRefAux (c : Classifier) (eo : List Ident) (b : Ident × (Nat × Nat)) :
    Ident × (Nat × Nat) :=
  eo.foldl
    (fun b e =>
      let s := refScore c e
      if Better s b.2 then (e, s) else b)
    b

/-- The reference entity chosen by `compute_layers`, for the given
iteration order `eo` of the entity set.  The scan starts from
`reference_entity = String::new()` and `best_score = (0, 0)`. -/
def pickRef (c : Classifier) (eo : List Ident) : Ident :=
  (pickRefAux c eo ([], (0, 0))).1

/-- One body execution of the propagation loop over a distance entry. -/
def propStep (layers : LayerMap) (key : Key) (d : Int) : LayerMap × Bool :=
  match parseKey key with
  | none => (layers, false)
  | some (l, r) =>
    match lookupA layers l, lookupA layers r with
    | some ll, none => (insertA layers r (ll + d), true)
    | none, some lr => (insertA layers l (lr - d), true)
    | some ll, some lr =>
      if lr < ll + d then (insertA layers r (ll + d), true) else (layers, false)
    | none, none => (layers, false)

/-- One full pass of the propagation loop over all distance entries. -/
def propPass (entries : List (Key × Int)) (layers : LayerMap) : LayerMap × Bool :=
  entries.foldl
    (fun acc e =>
      let r := propStep acc.1 e.1 e.2
      (r.1, acc.2 || r.2))
    (layers, false)

/-- The no-progress fallback: place every still-unplaced entity at 0. -/
def placeRemaining (entities : List Ident) (layers : LayerMap) : LayerMap :=
  entities.foldl (fun m e => if (lookupA m e).isSome then m else insertA m e 0) layers

/-- The bounded propagation loop (`while layers.len() < entities.len()
&& iteration < max_iterations`). -/
def propLoop (entries : List (Key × Int)) (entities : List Ident) :
    Nat → LayerMap → LayerMap
  | 0, layers => layers
  | fuel + 1, layers =>
    if layers.length < entities.length then
      let r := propPass entries layers
      let layers2 := if r.2 then r.1 else placeRemaining entities r.1
      propLoop entries entities fuel layers2
    else layers

/-- `layers.values().min().unwrap_or(&0)`. -/
def minVals : List Int → Int
  | [] => 0
  | v :: vs => vs.foldl (fun a b => if b < a then b else a) v

/-- Lexicographic comparison of strings, as used by `Vec<String>::sort`. -/
def lexLe : List Char → List Char → Bool
  | [], _ => true
  | _ :: _, [] => false
  | a :: xs, b :: ys => if a = b then lexLe xs ys else decide (a < b)

/-- Insertion step for sorting a bucket of identifiers. -/
def insertLex (x : Ident) : List Ident → List Ident
  | [] => [x]
  | y :: ys => if lexLe x y then x :: y :: ys else y :: insertLex x ys

/-- Sort identifiers lexicographically (`layer.sort()`). -/
def sortLex (l : List Ident) : List Ident := l.foldr insertLex []

/-- Insertion step for sorting layer indices. -/
def insertIntSorted (v : Int) : List Int → List Int
  | [] => [v]
  | w :: ws => if v ≤ w then v :: w :: ws else w :: insertIntSorted v ws

/-- Sort layer indices ascending (`sorted_layer_indices.sort()`). -/
def sortInts (l : List Int) : List Int := l.foldr insertIntSorted []

/-- `compute_layers()`, for the given iteration order `eo` of the entity
set (reference selection) and enumeration `entries` of the distance map
(propagation loop). -/
def computeLayers (c : Classifier) (eo : List Ident) (entries : List (Key × Int)) :
    List (List Ident) :=
  if c.entities = [] then []
  else
    let ref := pickRef c eo
    let fuel := c.entities.length ^ 2
    let layers := propLoop entries c.entities fuel [(ref, 0)]
    let minL := minVals (layers.map Prod.snd)
    let layersN := if minL < 0 then layers.map (fun p => (p.1, p.2 - minL)) else layers
    let vals := sortInts ((layersN.map Prod.snd).dedup)
    vals.map fun v => sortLex ((layersN.filter fun p => decide (p.2 = v)).map Prod.fst)

/-- A `compute_layers` call through `&self`: it returns the grouping and
leaves the observed state untouched. -/
def computeLayersCall (c : Classifier) (eo : List Ident) (entries : List (Key × Int)) :
    List (List Ident) × Classifier :=
  (computeLayers c eo entries, c)

/-- The `get_stats()` snapshot. -/
structure Stats where
  entities : Nat
  relations : Nat
  distances : Nat
deriving DecidableEq

/-- `get_stats()`. -/
def getStats (c : Classifier) : Stats :=
  ⟨c.entities.length, c.relations.length, c.distances.length⟩

/-- Whether some ordered triple of pairwise-distinct entities still
yields a larger candidate distance, i.e. whether one more relaxation
step would change the map. -/
def relaxableExists (order : List Ident) (m : DistMap) : Bool :=
  (triples order).any fun t => (relaxTriple m t.1 t.2.1 t.2.2).2

/-- An identifier that does not contain the key-separator character. -/
abbrev SepFree (s : List Char) : Prop := sepChar ∉ s

/-- Every key currently in a distance map contains the separator. -/
def KeysSep (m : DistMap) : Prop := ∀ p ∈ m, sepChar ∈ p.1

/-- Pointwise extension ordering between distance maps: every present
entry stays present with a value at least as large. -/
def MonoD (m m2 : DistMap) : Prop :=
  ∀ k v, lookupA m k = some v → ∃ w, lookupA m2 k = some w ∧ v ≤ w

/-! Concrete identifiers and engine runs used by the claims. -/

def idA : Ident := ['A']

def idB : Ident := ['B']

def idC : Ident := ['C']

def idD : Ident := ['D']

/-- State after `addRelation(A,B); addRelation(B,A); addRelation(C,D)`. -/
def stC1 : Classifier := runRelations [(idA, idB), (idB, idA), (idC, idD)]

/-- State after `addRelation(A,B); addRelation(B,C); addRelation(A,C)`. -/
def stC2 : Classifier := runRelations [(idA, idB), (idB, idC), (idA, idC)]

/-- State after `addRelation(A,B); addRelation(B,C); addRelation(C,A)`. -/
def stC3 : Classifier := runRelations [(idA, idB), (idB, idC), (idC, idA)]

/-- State after `addRelation(A,B); addRelation(B,C); addRelation(C,D)`. -/
def stC4 : Classifier := runRelations [(idA, idB), (idB, idC), (idC, idD)]

/-- State after a single `addRelation(A,B)`. -/
def stC5 : Classifier := runRelations [(idA, idB)]

/-- The identifier whose text is `a→a`: it contains the key separator. -/
def idX : Ident := ['a', sepChar, 'a']

/-- The identifier `a`. -/
def idLa : Ident := ['a']

/-- The identifier `b`. -/
def idLb : Ident := ['b']

/-- The identifier whose text is `a→a→a`. -/
def idY : Ident := ['a', sepChar, 'a', sepChar, 'a']

/-- State after the single self-relation `addRelation(a→a, a→a)`. -/
def stC7a : Classifier := runRelations [(idX, idX)]

/-- State after `addRelation(a→a, a→a); addRelation(a, b);
addRelation(b, a→a→a)`. -/
def stC7 : Classifier := runRelations [(idX, idX), (idLa, idLb), (idLb, idY)]

/-- A one-entry distance map used as a concrete converged example. -/
def mW : DistMap := [(makeKey idA idB, 1)]

/-! Helper lemmas about the association-list map operations. -/

theorem lookupA_insertA_self {β : Type} :
    ∀ (m : List (List Char × β)) (k : List Char) (v : β),
      lookupA (insertA m k v) k = some v := by
  intro m
  induction m with
  | nil => intro k v; simp [insertA, lookupA]
  | cons p rest ih =>
    intro k v
    by_cases h : p.1 = k
    · simp [insertA, h, lookupA]
    · simp [insertA, h, lookupA, ih]

theorem lookupA_insertA_ne {β : Type} :
    ∀ (m : List (List Char × β)) (k k' : List Char) (v : β), k' ≠ k →
      lookupA (insertA m k v) k' = lookupA m k' := by
  intro m
  induction m with
  | nil =>
    intro k k' v h
    have h2 : ¬k = k' := fun hh => h hh.symm
    simp [insertA, lookupA, h2]
  | cons p rest ih =>
    intro k k' v h
    have h2 : ¬k = k' := fun hh => h hh.symm
    by_cases hp : p.1 = k
    · simp [insertA, hp, lookupA, h2]
    · simp [insertA, hp, lookupA, ih k k' v h]

theorem mem_insertA {β : Type} :
    ∀ (m : List (List Char × β)) (k : List Char) (v : β) (p : List Char × β),
      p ∈ insertA m k v → p ∈ m ∨ p = (k, v) := by
  intro m
  induction m with
  | nil => intro k v p hp; simp [insertA] at hp; right; exact hp
  | cons q rest ih =>
    intro k v p hp
    by_cases h : q.1 = k
    · rw [insertA, if_pos h] at hp
      rcases List.mem_cons.mp hp with rfl | hp'
      · right; rfl
      · left; exact List.mem_cons_of_mem _ hp'
    · rw [insertA, if_neg h] at hp
      rcases List.mem_cons.mp hp with rfl | hp'
      · left; exact List.mem_cons_self _ _
      · rcases ih k v p hp' with h1 | h2
        · left; exact List.mem_cons_of_mem _ h1
        · right; exact h2

/-! Monotonicity of the closure engine (no entry is ever removed or
decreased by `update_distances`). -/

theorem monoD_refl (m : DistMap) : MonoD m m := fun _ v h => ⟨v, h, le_refl v⟩

theorem monoD_trans {m1 m2 m3 : DistMap} (h12 : MonoD m1 m2) (h23 : MonoD m2 m3) :
    MonoD m1 m3 := by
  intro k v h
  obtain ⟨w, hw, hvw⟩ := h12 k v h
  obtain ⟨u, hu, hwu⟩ := h23 k w hw
  exact ⟨u, hu, le_trans hvw hwu⟩

theorem monoD_insert_new (m : DistMap) (k : Key) (v : Int)
    (h : lookupA m k = none) : MonoD m (insertA m k v) := by
  intro k' v' h'
  refine ⟨v', ?_, le_refl v'⟩
  rcases eq_or_ne k' k with rfl | hne
  · rw [h] at h'; cases h'
  · rw [lookupA_insertA_ne m k k' v hne]; exact h'

theorem monoD_insert_ge (m : DistMap) (k : Key) (v cur : Int)
    (h : lookupA m k = some cur) (hle : cur ≤ v) : MonoD m (insertA m k v) := by
  intro k' v' h'
  rcases eq_or_ne k' k with rfl | hne
  · rw [h] at h'
    injection h' with hv
    subst hv
    exact ⟨v, lookupA_insertA_self m k' v, hle⟩
  · rw [lookupA_insertA_ne m k k' v hne]
    exact ⟨v', h', le_refl v'⟩

theorem relaxTriple_mono (m : DistMap) (k i j : Ident) :
    MonoD m (relaxTriple m k i j).1 := by
  unfold relaxTriple
  split
  · split
    · split
      · split
        · exact monoD_insert_ge m _ _ _ (by assumption) (le_of_lt (by assumption))
        · exact monoD_refl m
      · exact monoD_insert_new m _ _ (by assumption)
    · exact monoD_refl m
  · exact monoD_refl m

theorem passFold_mono :
    ∀ (ts : List (Ident × Ident × Ident)) (m : DistMap) (b : Bool),
      MonoD m (ts.foldl passStep (m, b)).1 := by
  intro ts
  induction ts with
  | nil => intro m b; exact monoD_refl m
  | cons t ts ih =>
    intro m b
    rw [List.foldl_cons]
    exact monoD_trans (relaxTriple_mono m t.1 t.2.1 t.2.2) (ih _ _)

theorem runPass_mono (order : List Ident) (m : DistMap) :
    MonoD m (runPass order m).1 :=
  passFold_mono (triples order) m false

theorem updateLoop_mono (order : List Ident) :
    ∀ (fuel : Nat) (m : DistMap), MonoD m (updateLoop order fuel m) := by
  intro fuel
  induction fuel with
  | zero => intro m; exact monoD_refl m
  | succ n ih =>
    intro m
    show MonoD m (if (runPass order m).2 = true then updateLoop order n (runPass order m).1
      else (runPass order m).1)
    split
    · exact monoD_trans (runPass_mono order m) (ih _)
    · exact runPass_mono order m

theorem updateDistances_mono (order : List Ident) (m : DistMap) :
    MonoD m (updateDistances order m) :=
  updateLoop_mono order order.length m

/-! A pass that reports no change leaves the map untouched and
witnesses a fixed point of the relaxation rule. -/

theorem relaxTriple_snd_false (m : DistMap) (k i j : Ident) :
    (relaxTriple m k i j).2 = false → (relaxTriple m k i j).1 = m := by
  unfold relaxTriple
  split
  · split
    · split
      · split
        · intro h; exact absurd h (by simp)
        · intro _; rfl
      · intro h; exact absurd h (by simp)
    · intro _; rfl
  · intro _; rfl

theorem passFold_true :
    ∀ (ts : List (Ident × Ident × Ident)) (m : DistMap),
      (ts.foldl passStep (m, true)).2 = true := by
  intro ts
  induction ts with
  | nil => intro m; rfl
  | cons t ts ih =>
    intro m
    rw [List.foldl_cons]
    show (ts.foldl passStep ((relaxTriple m t.1 t.2.1 t.2.2).1,
      true || (relaxTriple m t.1 t.2.1 t.2.2).2)).2 = true
    rw [Bool.true_or]
    exact ih _

theorem passFold_false :
    ∀ (ts : List (Ident × Ident × Ident)) (m : DistMap),
      (ts.foldl passStep (m, false)).2 = false →
      (ts.foldl passStep (m, false)).1 = m ∧
        ∀ t ∈ ts, (relaxTriple m t.1 t.2.1 t.2.2).2 = false := by
  intro ts
  induction ts with
  | nil => intro m _; exact ⟨rfl, by simp⟩
  | cons t ts ih =>
    intro m h
    rw [List.foldl_cons] at h ⊢
    by_cases hr : (relaxTriple m t.1 t.2.1 t.2.2).2 = true
    · exfalso
      have hstep : passStep (m, false) t
          = ((relaxTriple m t.1 t.2.1 t.2.2).1, true) := by
        simp [passStep, hr]
      rw [hstep] at h
      rw [passFold_true ts _] at h
      exact Bool.noConfusion h
    · have hr' : (relaxTriple m t.1 t.2.1 t.2.2).2 = false :=
        Bool.eq_false_iff.mpr hr
      have hm : (relaxTriple m t.1 t.2.1 t.2.2).1 = m :=
        relaxTriple_snd_false m t.1 t.2.1 t.2.2 hr'
      have hstep : passStep (m, false) t = (m, false) := by
        simp [passStep, hr', hm]
      rw [hstep] at h ⊢
      obtain ⟨h1, h2⟩ := ih m h
      refine ⟨h1, ?_⟩
      intro t' ht'
      rcases List.mem_cons.mp ht' with rfl | ht''
      · exact hr'
      · exact h2 t' ht''

theorem runPass_quiet_aux (order : List Ident) (m m2 : DistMap)
    (h : runPass order m = (m2, false)) :
    m2 = m ∧ relaxableExists order m = false ∧
      ∀ fuel, updateLoop order (fuel + 1) m = m2 := by
  have h2 : (runPass order m).2 = false := by rw [h]
  obtain ⟨h1, hall⟩ := passFold_false (triples order) m h2
  have hm2 : m2 = m := by
    have hfst : (runPass order m).1 = m2 := by rw [h]
    rw [← hfst]
    exact h1
  refine ⟨hm2, ?_, ?_⟩
  · unfold relaxableExists
    rw [List.any_eq_false]
    intro t ht
    simp [hall t ht]
  · intro fuel
    show (if (runPass order m).2 = true then updateLoop order fuel (runPass order m).1
      else (runPass order m).1) = m2
    rw [h]
    simp

/-! Lexicographic facts about the score comparison. -/

theorem better_irrefl (a : Nat × Nat) : ¬Better a a := by
  unfold Better
  omega

theorem not_better_trans {a b c : Nat × Nat}
    (h1 : ¬Better a b) (h2 : ¬Better b c) : ¬Better a c := by
  unfold Better at *
  omega

theorem better_shift {s b r : Nat × Nat}
    (h1 : Better s b) (h2 : ¬Better s r) : ¬Better b r := by
  unfold Better at *
  omega

theorem pickRefAux_cons (c : Classifier) (e : Ident) (tl : List Ident)
    (b : Ident × (Nat × Nat)) :
    pickRefAux c (e :: tl) b
      = pickRefAux c tl (if Better (refScore c e) b.2 then (e, refScore c e) else b) := rfl

theorem pickRefAux_spec (c : Classifier) :
    ∀ (eo : List Ident) (b : Ident × (Nat × Nat)),
      (pickRefAux c eo b = b ∨
        ((pickRefAux c eo b).1 ∈ eo ∧
          (pickRefAux c eo b).2 = refScore c (pickRefAux c eo b).1)) ∧
      ¬Better b.2 (pickRefAux c eo b).2 ∧
      ∀ e ∈ eo, ¬Better (refScore c e) (pickRefAux c eo b).2 := by
  intro eo
  induction eo with
  | nil =>
    intro b
    exact ⟨Or.inl rfl, better_irrefl b.2, by simp⟩
  | cons e tl ih =>
    intro b
    rw [pickRefAux_cons]
    by_cases hb : Better (refScore c e) b.2
    · rw [if_pos hb]
      obtain ⟨ih1, ih2, ih3⟩ := ih (e, refScore c e)
      refine ⟨?_, better_shift hb ih2, ?_⟩
      · rcases ih1 with heq | ⟨hmem, hsc⟩
        · right
          rw [heq]
          exact ⟨List.mem_cons_self e tl, rfl⟩
        · exact Or.inr ⟨List.mem_cons_of_mem e hmem, hsc⟩
      · intro e' he'
        rcases List.mem_cons.mp he' with rfl | he''
        · exact ih2
        · exact ih3 e' he''
    · rw [if_neg hb]
      obtain ⟨ih1, ih2, ih3⟩ := ih b
      refine ⟨?_, ih2, ?_⟩
      · rcases ih1 with heq | ⟨hmem, hsc⟩
        · exact Or.inl heq
        · exact Or.inr ⟨List.mem_cons_of_mem e hmem, hsc⟩
      · intro e' he'
        rcases List.mem_cons.mp he' with rfl | he''
        · exact not_better_trans hb ih2
        · exact ih3 e' he''

/-! Rigidity of the string key of a separator-free self-pair, and
preservation of self-pair entries.  The self-pair key is rigid with no
assumption on the other pair: if `l ++ sep :: r = x ++ sep :: x` and
`sep` does not occur in `x`, the first separator of the right-hand side
sits exactly at position `|x|`, and were `|l| ≠ |x|` the separator
would have to occur inside `x`; hence `l = x` and `r = x` even when `l`
or `r` themselves contain the separator. -/

theorem append_sep_self_inj (sep : Char) :
    ∀ (x l r y : List Char), sep ∉ x → sep ∉ y →
      l ++ sep :: r = x ++ sep :: y → l = x ∧ r = y := by
  intro x
  induction x with
  | nil =>
    intro l r y _ hy heq
    cases l with
    | nil =>
      simp only [List.nil_append] at heq
      injection heq with _ htl
      exact ⟨rfl, htl⟩
    | cons c t =>
      simp only [List.cons_append, List.nil_append] at heq
      injection heq with _ htl
      exfalso
      apply hy
      rw [← htl]
      exact List.mem_append_right t (List.mem_cons_self sep r)
  | cons c x' ih =>
    intro l r y hx hy heq
    cases l with
    | nil =>
      simp only [List.nil_append, List.cons_append] at heq
      injection heq with hc _
      exact absurd (by rw [hc]; exact List.mem_cons_self c x') hx
    | cons c2 t =>
      simp only [List.cons_append] at heq
      injection heq with hc htl
      have hx' : sep ∉ x' := fun hh => hx (List.mem_cons_of_mem c hh)
      obtain ⟨h1, h2⟩ := ih t r y hx' hy htl
      exact ⟨by rw [hc, h1], h2⟩

theorem makeKey_self_eq (l r x : Ident) (hx : SepFree x)
    (h : makeKey l r = makeKey x x) : l = x ∧ r = x := by
  unfold makeKey at h
  exact append_sep_self_inj sepChar x l r x hx hx h

theorem relaxTriple_preserves_self (m : DistMap) (k i j x : Ident)
    (hx : SepFree x) :
    lookupA (relaxTriple m k i j).1 (makeKey x x) = lookupA m (makeKey x x) := by
  unfold relaxTriple
  split
  next hg =>
    have hne : makeKey x x ≠ makeKey i j := by
      intro he
      obtain ⟨h1, h2⟩ := makeKey_self_eq i j x hx he.symm
      exact hg.1 (h1.trans h2.symm)
    split
    · split
      · split
        · exact lookupA_insertA_ne m _ _ _ hne
        · rfl
      · exact lookupA_insertA_ne m _ _ _ hne
    · rfl
  next => rfl

theorem passFold_preserves_self (x : Ident) (hx : SepFree x) :
    ∀ (ts : List (Ident × Ident × Ident)) (m : DistMap) (b : Bool),
      lookupA ((ts.foldl passStep (m, b)).1) (makeKey x x)
        = lookupA m (makeKey x x) := by
  intro ts
  induction ts with
  | nil => intro m b; rfl
  | cons t ts ih =>
    intro m b
    rw [List.foldl_cons]
    calc lookupA ((ts.foldl passStep (passStep (m, b) t)).1) (makeKey x x)
        = lookupA (relaxTriple m t.1 t.2.1 t.2.2).1 (makeKey x x) :=
          ih (relaxTriple m t.1 t.2.1 t.2.2).1 (b || (relaxTriple m t.1 t.2.1 t.2.2).2)
      _ = lookupA m (makeKey x x) :=
          relaxTriple_preserves_self m t.1 t.2.1 t.2.2 x hx

theorem updateLoop_preserves_self (x : Ident) (hx : SepFree x) (order : List Ident) :
    ∀ (fuel : Nat) (m : DistMap),
      lookupA (updateLoop order fuel m) (makeKey x x) = lookupA m (makeKey x x) := by
  intro fuel
  induction fuel with
  | zero => intro m; rfl
  | succ n ih =>
    intro m
    show lookupA (if (runPass order m).2 = true then updateLoop order n (runPass order m).1
      else (runPass order m).1) (makeKey x x) = lookupA m (makeKey x x)
    split
    · calc lookupA (updateLoop order n (runPass order m).1) (makeKey x x)
          = lookupA (runPass order m).1 (makeKey x x) := ih _
        _ = lookupA m (makeKey x x) :=
            passFold_preserves_self x hx (triples order) m false
    · exact passFold_preserves_self x hx (triples order) m false

/-! Every key ever stored in the distance map contains the separator,
hence always parses back into two components. -/

theorem sep_mem_makeKey (l r : Ident) : sepChar ∈ makeKey l r := by
  unfold makeKey
  exact List.mem_append_right l (List.mem_cons_self sepChar r)

theorem keysSep_insertA (m : DistMap) (k : Key) (v : Int)
    (hm : KeysSep m) (hk : sepChar ∈ k) : KeysSep (insertA m k v) := by
  intro p hp
  rcases mem_insertA m k v p hp with h1 | h2
  · exact hm p h1
  · rw [h2]
    exact hk

theorem keysSep_relaxTriple (m : DistMap) (k i j : Ident) (hm : KeysSep m) :
    KeysSep (relaxTriple m k i j).1 := by
  unfold relaxTriple
  split
  · split
    · split
      · split
        · exact keysSep_insertA m _ _ hm (sep_mem_makeKey i j)
        · exact hm
      · exact keysSep_insertA m _ _ hm (sep_mem_makeKey i j)
    · exact hm
  · exact hm

theorem keysSep_passFold :
    ∀ (ts : List (Ident × Ident × Ident)) (m : DistMap) (b : Bool),
      KeysSep m → KeysSep ((ts.foldl passStep (m, b)).1) := by
  intro ts
  induction ts with
  | nil => intro m b hm; exact hm
  | cons t ts ih =>
    intro m b hm
    rw [List.foldl_cons]
    exact ih _ _ (keysSep_relaxTriple m t.1 t.2.1 t.2.2 hm)

theorem keysSep_updateLoop (order : List Ident) :
    ∀ (fuel : Nat) (m : DistMap), KeysSep m → KeysSep (updateLoop order fuel m) := by
  intro fuel
  induction fuel with
  | zero => intro m hm; exact hm
  | succ n ih =>
    intro m hm
    show KeysSep (if (runPass order m).2 = true then updateLoop order n (runPass order m).1
      else (runPass order m).1)
    split
    · exact ih _ (keysSep_passFold (triples order) m false hm)
    · exact keysSep_passFold (triples order) m false hm

theorem keysSep_addRelation (c : Classifier) (l r : Ident) (order : List Ident)
    (hc : KeysSep c.distances) : KeysSep (addRelation c l r order).distances := by
  show KeysSep (updateLoop order order.length (insertA c.distances (makeKey l r) 1))
  exact keysSep_updateLoop order order.length _
    (keysSep_insertA c.distances _ 1 hc (sep_mem_makeKey l r))

theorem keysSep_runRelationsWith (calls : List ((Ident × Ident) × List Ident)) :
    KeysSep (runRelationsWith calls).distances := by
  have main : ∀ (cs : List ((Ident × Ident) × List Ident)) (c : Classifier),
      KeysSep c.distances →
      KeysSep ((cs.foldl (fun c p => addRelation c p.1.1 p.1.2 p.2) c)).distances := by
    intro cs
    induction cs with
    | nil => intro c hc; exact hc
    | cons p cs ih =>
      intro c hc
      rw [List.foldl_cons]
      exact ih _ (keysSep_addRelation c p.1.1 p.1.2 p.2 hc)
  exact main calls newClassifier (fun p hp => absurd hp (List.not_mem_nil p))

theorem splitChar_ne_nil (sep : Char) : ∀ (l : List Char), splitChar sep l ≠ [] := by
  intro l
  cases l with
  | nil => intro h; exact List.noConfusion h
  | cons c rest =>
    unfold splitChar
    by_cases hc : c = sep
    · rw [if_pos hc]
      intro h
      exact List.noConfusion h
    · rw [if_neg hc]
      rcases hs : splitChar sep rest with _ | ⟨a, t⟩ <;> intro h <;>
        exact List.noConfusion h

theorem splitChar_two (sep : Char) :
    ∀ (l : List Char), sep ∈ l → 2 ≤ (splitChar sep l).length := by
  intro l
  induction l with
  | nil => intro h; cases h
  | cons c rest ih =>
    intro h
    unfold splitChar
    by_cases hc : c = sep
    · rw [if_pos hc]
      rcases hs : splitChar sep rest with _ | ⟨a, t⟩
      · exact absurd hs (splitChar_ne_nil sep rest)
      · simp only [List.length_cons]
        omega
    · rw [if_neg hc]
      have hmem : sep ∈ rest := by
        rcases List.mem_cons.mp h with h1 | h2
        · exact absurd h1.symm hc
        · exact h2
      have h2 := ih hmem
      rcases hs : splitChar sep rest with _ | ⟨a, t⟩
      · exact absurd hs (splitChar_ne_nil sep rest)
      · rw [hs] at h2
        show 2 ≤ ((c :: a) :: t).length
        simp only [List.length_cons] at h2 ⊢
        omega

theorem parseKey_isSome (k : Key) (h : sepChar ∈ k) : (parseKey k).isSome = true := by
  unfold parseKey
  have h2 := splitChar_two sepChar k h
  rcases hs : splitChar sepChar k with _ | ⟨a, t⟩
  · exact absurd hs (splitChar_ne_nil sepChar k)
  · cases t with
    | nil =>
      rw [hs] at h2
      simp at h2
    | cons b t2 => rfl

/-! The claims. -/

/-- C1: the partition property fails on the code.  After
`addRelation(A,B); addRelation(B,A); addRelation(C,D)` the entities C
and D are registered, yet `computeLayers()` returns only the buckets
`[[B],[A]]`: the two-entity cycle makes every propagation pass report
progress (it keeps raising A and B), so the no-progress fallback never
runs, the `n^2` iteration cap is exhausted with C and D unplaced, and
the grouping silently drops them.  This contradicts the documented
partition property (every registered entity appears in exactly one
bucket), so it is a code bug witnessed here by evaluation. -/
theorem c1_partition_violated :
    idC ∈ stC1.entities ∧ idD ∈ stC1.entities ∧
    computeLayers stC1 stC1.entities stC1.distances = [[idB], [idA]] := by
  decide

/-- C2: after `addRelation(A,B); addRelation(B,C); addRelation(A,C)`,
the distance-map entry for the pair (A,C) equals 2 (the longer path via
B, not the direct edge), and `computeLayers()` places A, B, C in three
distinct singleton buckets in ascending order A, B, C. -/
theorem c2_closure_strengthening :
    lookupA stC2.distances (makeKey idA idC) = some 2 ∧
    computeLayers stC2 stC2.entities stC2.distances = [[idA], [idB], [idC]] := by
  decide

/-- C3, counterexample: after `addRelation(A,B); addRelation(B,C);
addRelation(C,A)` (a directed cycle), the distance map left behind by
the engine still admits a relaxable triple — one further pass would
change it again — so the closure recomputation exited by exhausting its
iteration bound, not because a full pass changed no distance, and the
resulting map is not a fixed point. -/
theorem c3_cycle_not_fixpoint :
    relaxableExists stC3.entities stC3.distances = true ∧
    (runPass stC3.entities stC3.distances).2 = true := by
  decide

/-- C3, amended: the closure recomputation always terminates within its
bound, and whenever a full pass over all ordered triples changes no
distance, the map is genuinely a fixed point: the pass leaves it
unchanged, no triple of pairwise-distinct entities yields a larger (or
missing) candidate, and the pass loop stops there.  (On cyclic inputs
the bound can be exhausted before any such pass occurs, as the
counterexample shows.) -/
theorem c3_quiet_pass_is_fixpoint (order : List Ident) (m m2 : DistMap)
    (h : runPass order m = (m2, false)) :
    m2 = m ∧ relaxableExists order m = false ∧
      ∀ fuel, updateLoop order (fuel + 1) m = m2 :=
  runPass_quiet_aux order m m2 h

/-- Witness for `c3_quiet_pass_is_fixpoint` at a concrete converged
map: a single-edge distance map over two entities. -/
theorem c3_quiet_pass_is_fixpoint_witness :
    runPass [idA, idB] mW = (mW, false) ∧
    (mW = mW ∧ relaxableExists [idA, idB] mW = false ∧
      ∀ fuel, updateLoop [idA, idB] (fuel + 1) mW = mW) :=
  ⟨by decide, c3_quiet_pass_is_fixpoint [idA, idB] mW mW (by decide)⟩

/-- C4: after `addRelation(A,B); addRelation(B,C); addRelation(C,D)`,
`computeLayers()` returns the four singleton buckets
`[[A],[B],[C],[D]]` in that order. -/
theorem c4_chain_property :
    computeLayers stC4 stC4.entities stC4.distances = [[idA], [idB], [idC], [idD]] := by
  decide

/-- C5, counterexample: the tie-break of the reference selection is the
iteration order of the unordered entity set, not a deterministic rule.
After a single `addRelation(A,B)` both entities carry the identical
score (1,1), and the two possible iteration orders of the entity set
make `compute_layers` choose different references. -/
theorem c5_tiebreak_is_iteration_order :
    stC5.entities = [idA, idB] ∧
    refScore stC5 idA = refScore stC5 idB ∧
    pickRef stC5 [idA, idB] = idA ∧
    pickRef stC5 [idB, idA] = idB := by
  decide

/-- C5, amended: for every engine state and every iteration order of a
non-empty entity set in which each entity touches at least one relation
record, the chosen reference is one of the scanned entities and its
(primary, secondary) score is lexicographically maximal — no entity
beats it.  Ties, however, are resolved by the scan order itself (the
first maximal entity encountered wins), as the counterexample shows. -/
theorem c5_reference_maximal_score (c : Classifier) (eo : List Ident)
    (hne : eo ≠ []) (hconn : ∀ e ∈ eo, 1 ≤ (refScore c e).1) :
    pickRef c eo ∈ eo ∧
    ∀ e ∈ eo, ¬Better (refScore c e) (refScore c (pickRef c eo)) := by
  obtain ⟨h1, _h2, h3⟩ := pickRefAux_spec c eo ([], (0, 0))
  rcases h1 with heq | ⟨hmem, hsc⟩
  · exfalso
    cases eo with
    | nil => exact hne rfl
    | cons e tl =>
      have h := h3 e (List.mem_cons_self e tl)
      rw [heq] at h
      apply h
      left
      show 0 < (refScore c e).1
      exact hconn e (List.mem_cons_self e tl)
  · refine ⟨hmem, ?_⟩
    intro e he
    have h := h3 e he
    rw [hsc] at h
    exact h

/-- Witness for `c5_reference_maximal_score` at the concrete state with
the single relation (A,B). -/
theorem c5_reference_maximal_score_witness :
    (([idA, idB] : List Ident) ≠ [] ∧ ∀ e ∈ [idA, idB], 1 ≤ (refScore stC5 e).1) ∧
    (pickRef stC5 [idA, idB] ∈ [idA, idB] ∧
      ∀ e ∈ [idA, idB], ¬Better (refScore stC5 e) (refScore stC5 (pickRef stC5 [idA, idB]))) :=
  ⟨⟨by decide, by decide⟩,
   c5_reference_maximal_score stC5 [idA, idB] (by decide) (by decide)⟩

/-- C6: the closure recomputation never removes and never decreases a
distance-map entry — for any iteration order, any map and any key with
an entry, after `update_distances` the key still has an entry and its
value is at least the old one; and the only reset path is
`add_relation(left, right)`, which (by definition of the code) first
sets the entry of that exact pair key to exactly 1, unconditionally,
before running the recomputation. -/
theorem c6_closure_monotone :
    (∀ (order : List Ident) (m : DistMap) (k : Key) (v : Int),
        lookupA m k = some v →
        ∃ w, lookupA (updateDistances order m) k = some w ∧ v ≤ w) ∧
    (∀ (c : Classifier) (l r : Ident) (order : List Ident),
        (addRelation c l r order).distances
          = updateDistances order (insertA c.distances (makeKey l r) 1) ∧
        lookupA (insertA c.distances (makeKey l r) 1) (makeKey l r) = some 1) := by
  constructor
  · intro order m k v h
    exact updateDistances_mono order m k v h
  · intro c l r order
    exact ⟨rfl, lookupA_insertA_self c.distances (makeKey l r) 1⟩

/-- Witness for `c6_closure_monotone` at a concrete one-entry map. -/
theorem c6_closure_monotone_witness :
    lookupA mW (makeKey idA idB) = some 1 ∧
    (∃ w, lookupA (updateDistances [idA, idB] mW) (makeKey idA idB) = some w ∧ (1 : Int) ≤ w) :=
  ⟨by decide, c6_closure_monotone.1 [idA, idB] mW (makeKey idA idB) 1 (by decide)⟩

/-- C7, counterexample: the self-pair entry is not immune to later
recomputation when the entity x itself contains the separator
character.  With x the identifier `a→a`, `addRelation(x,x)` creates the
entry for the pair (x,x) with value 1, but the string key of (x,x)
collides with the key of the pair (`a`, `a→a→a`), so after the later
calls `addRelation(a,b); addRelation(b,a→a→a)` the closure
recomputation overwrites that entry (it ends at 161 under the
canonical iteration orders) — the claim that no recomputation ever
changes it is false for such an x. -/
theorem c7_selfpair_corrupted_by_collision :
    lookupA stC7a.distances (makeKey idX idX) = some 1 ∧
    lookupA stC7.distances (makeKey idX idX) = some 161 := by
  decide

/-- C7, amended: for every entity x whose identifier does not contain
the key-separator character, the claim holds exactly as stated, with no
restriction on any other identifier in the run: `addRelation(x,x)`
leaves the entry of the pair (x,x) at exactly 1 (the triggered
recomputation never touches it because the relaxation guard requires
three pairwise distinct entities, and the key of a separator-free
self-pair cannot be produced by any other ordered pair), and any later
`addRelation` call — its identifiers and the set iteration order fully
arbitrary, separator-bearing ones included — preserves that entry at
exactly 1. -/
theorem c7_selfpair_stable_sepfree :
    (∀ (c : Classifier) (x : Ident) (order : List Ident), SepFree x →
        lookupA (addRelation c x x order).distances (makeKey x x) = some 1) ∧
    (∀ (c : Classifier) (x l r : Ident) (order : List Ident), SepFree x →
        lookupA c.distances (makeKey x x) = some 1 →
        lookupA (addRelation c l r order).distances (makeKey x x) = some 1) := by
  constructor
  · intro c x order hx
    show lookupA (updateLoop order order.length (insertA c.distances (makeKey x x) 1))
      (makeKey x x) = some 1
    rw [updateLoop_preserves_self x hx order order.length _]
    exact lookupA_insertA_self c.distances (makeKey x x) 1
  · intro c x l r order hx hprev
    show lookupA (updateLoop order order.length (insertA c.distances (makeKey l r) 1))
      (makeKey x x) = some 1
    rw [updateLoop_preserves_self x hx order order.length _]
    by_cases hk : makeKey l r = makeKey x x
    · rw [hk]
      exact lookupA_insertA_self c.distances (makeKey x x) 1
    · rw [lookupA_insertA_ne c.distances (makeKey l r) (makeKey x x) 1
        (fun hh => hk hh.symm)]
      exact hprev

/-- Witness for `c7_selfpair_stable_sepfree`: a self-relation on the
separator-free `a`, followed by a relation whose right-hand identifier
`a→a→a` contains the separator — the self-pair entry of `a` still
stays at exactly 1. -/
theorem c7_selfpair_stable_sepfree_witness :
    SepFree idLa ∧
    lookupA (addRelation newClassifier idLa idLa [idLa]).distances
      (makeKey idLa idLa) = some 1 ∧
    lookupA (addRelation (addRelation newClassifier idLa idLa [idLa]) idLa idY
        [idLa, idY]).distances (makeKey idLa idLa) = some 1 :=
  ⟨by decide,
   c7_selfpair_stable_sepfree.1 newClassifier idLa [idLa] (by decide),
   c7_selfpair_stable_sepfree.2 (addRelation newClassifier idLa idLa [idLa])
     idLa idLa idY [idLa, idY] (by decide)
     (c7_selfpair_stable_sepfree.1 newClassifier idLa [idLa] (by decide))⟩

/-- C8: for every sequence of `add_relation` calls with arbitrary
string identifiers (empty strings, self-relations and
separator-containing identifiers included) and arbitrary set iteration
orders, every key stored in the distance map still contains the
separator, so `parse_key` splits it into at least two fragments and the
accesses `parts[0]`, `parts[1]` never go out of bounds — modelled here
by `parseKey` returning `some`. -/
theorem c8_stored_keys_always_parse
    (calls : List ((Ident × Ident) × List Ident)) (p : Key × Int)
    (hp : p ∈ (runRelationsWith calls).distances) :
    (parseKey p.1).isSome = true :=
  parseKey_isSome p.1 (keysSep_runRelationsWith calls p hp)

/-- Witness for `c8_stored_keys_always_parse`: the single call
`addRelation(a, b)` and its stored entry. -/
theorem c8_stored_keys_always_parse_witness :
    (makeKey idLa idLb, (1 : Int)) ∈ (runRelationsWith [((idLa, idLb), [idLa, idLb])]).distances ∧
    (parseKey (makeKey idLa idLb)).isSome = true :=
  ⟨by decide,
   c8_stored_keys_always_parse [((idLa, idLb), [idLa, idLb])]
     (makeKey idLa idLb, (1 : Int)) (by decide)⟩

/-- C9: `compute_layers` takes `&self`: a call returns the grouping and
leaves the state untouched, so two consecutive calls with no intervening
`add_relation` (hence the same stored map, observed in the same
iteration orders) return identical outputs, and the second call observes
exactly the entity set, relation list and distance map the first did. -/
theorem c9_compute_layers_idempotent (c : Classifier) (eo : List Ident)
    (entries : List (Key × Int)) :
    (computeLayersCall c eo entries).1
      = (computeLayersCall (computeLayersCall c eo entries).2 eo entries).1 ∧
    (computeLayersCall c eo entries).2 = c ∧
    (computeLayersCall (computeLayersCall c eo entries).2 eo entries).2 = c :=
  ⟨rfl, rfl, rfl⟩

/-- C10: on a freshly constructed engine, `computeLayers()` returns the
empty sequence for every iteration order, and `getStats()` reports zero
entities, zero relations and zero distance entries. -/
theorem c10_empty_state :
    (∀ (eo : List Ident) (entries : List (Key × Int)),
        computeLayers newClassifier eo entries = []) ∧
    getStats newClassifier = ⟨0, 0, 0⟩ :=
  ⟨fun _ _ => rfl, rfl⟩
